import Mathlib

/-!
Shallow embedding of the shortest-path engine of the `graphs` repository.

The repository contains two variants of the engine:
 * `src/client/lib/graphAlgorithms.ts` (the variant imported by the app pages);
   its functions are embedded here under their own names
   (`buildAdjacencyList`, `dijkstra`, `bellmanFord`);
 * `src/unnamed/part_001`, a second copy with the same exported interface but
   diverging behaviour in the adjacency builder, the Bellman-Ford pass loop and
   the negative-cycle branch; its functions are embedded with a `B` suffix
   (`buildAdjacencyListB`, `bellmanFordB`).

Modelling decisions (JavaScript semantics made explicit):
 * JS numbers holding distances are either a finite integer or `Infinity`;
   this is the type `Dist`.  Reading a missing key of a JS object yields
   `undefined`; association-list `lookup` returns `Option Dist`, with `none`
   playing the role of `undefined`.
 * `x + w < y` on these values: if `x` is `undefined` the sum is `NaN` and the
   comparison is false; if `x` is `Infinity` the sum is `Infinity`, which is
   `<` nothing (`Infinity < Infinity` is false, and any comparison against
   `undefined` is false); if `x` and `y` are finite it is integer comparison;
   if `x` is finite and `y` is `Infinity` it is true; if `y` is `undefined` it
   is false.  This truth table is the function `jsAddLt`.
 * A JS object preserves insertion order and updates keys in place: `setKey`.
 * `adjList[e.source].push(...)` on a missing key throws a TypeError, so the
   client-lib `buildAdjacencyList` is embedded with result type
   `Option AdjList`, `none` standing for the thrown exception (and `dijkstra`,
   which calls it, likewise returns `Option AlgorithmResult`).
 * In `if (!minNode) break` the empty string is falsy, so the loop also breaks
   when the selected node id is `""`; the embedding keeps this faithfully.
 * Node display coordinates `x`, `y` are never read by the engine and are
   omitted from the embedded `GraphNode`.
-/

namespace GA

structure GraphNode where
  id : String
  deriving DecidableEq, Repr

structure GraphEdge where
  source : String
  destination : String
  weight : Int
  deriving DecidableEq, Repr

/-- JS number used as a distance: a finite integer or `Infinity`. -/
inductive Dist where
  | inf
  | fin (z : Int)
  deriving DecidableEq, Repr

inductive StepType where
  | initial
  | select
  | relax
  | update
  | complete
  | negative_cycle
  deriving DecidableEq, Repr

structure AlgorithmStep where
  type : StepType
  iteration : Nat
  currentNode : Option String
  currentEdge : Option (String × String)
  distances : List (String × Dist)
  previous : List (String × Option String)
  updatedNodes : Option (List String)
  message : String
  deriving DecidableEq, Repr

structure AlgorithmResult where
  distances : List (String × Dist)
  previous : List (String × Option String)
  steps : List AlgorithmStep
  hasNegativeCycle : Bool
  shortestPathTree : List GraphEdge
  deriving DecidableEq, Repr

/-- Reading a key of a JS object; `none` is `undefined`. -/
def lookup {α : Type} : List (String × α) → String → Option α
  | [], _ => none
  | (k', v) :: m, k => if k' = k then some v else lookup m k

/-- Writing a key of a JS object: update in place, or append a new key. -/
def setKey {α : Type} : List (String × α) → String → α → List (String × α)
  | [], k, v => [(k, v)]
  | (k', v') :: m, k, v => if k' = k then (k', v) :: m else (k', v') :: setKey m k v

def keys {α : Type} (m : List (String × α)) : List String :=
  m.map Prod.fst

/-- The JS comparison `dsrc + w < ddst` on distance reads (see header). -/
def jsAddLt (dsrc : Option Dist) (w : Int) (ddst : Option Dist) : Bool :=
  match dsrc, ddst with
  | some (Dist.fin _), some Dist.inf => true
  | some (Dist.fin a), some (Dist.fin b) => decide (a + w < b)
  | _, _ => false

/-- The Bellman-Ford relaxation guard
`distances[source] !== Infinity && distances[source] + weight < distances[destination]`.
(The first conjunct is true on `undefined`, but then the second is false.) -/
def bfGuard (dsrc : Option Dist) (w : Int) (ddst : Option Dist) : Bool :=
  decide (dsrc ≠ some Dist.inf) && jsAddLt dsrc w ddst

/-- Initialization `distances[n.id] = n.id === sourceNode ? 0 : Infinity` over all nodes. -/
def initDist (nodes : List GraphNode) (sourceNode : String) : List (String × Dist) :=
  nodes.foldl (fun m n => setKey m n.id (if n.id = sourceNode then Dist.fin 0 else Dist.inf)) []

/-- Initialization `previous[n.id] = null` over all nodes. -/
def initPrev (nodes : List GraphNode) : List (String × Option String) :=
  nodes.foldl (fun m n => setKey m n.id none) []

/-- An adjacency list: node id ↦ list of `{node, weight}` records. -/
abbrev AdjList : Type := List (String × List (String × Int))

/-- Node phase `nodes.forEach(n => adjList[n.id] = [])` of the client-lib builder. -/
def initAdj (nodes : List GraphNode) : AdjList :=
  nodes.foldl (fun m n => setKey m n.id ([] : List (String × Int))) []

/-- Edge phase `edges.forEach(e => adjList[e.source].push(...))` of the client-lib builder:
reading a missing key gives `undefined`, and `.push` on it throws — hence `none`. -/
def addEdges : List GraphEdge → AdjList → Option AdjList
  | [], m => some m
  | e :: es, m =>
    match lookup m e.source with
    | none => none
    | some l => addEdges es (setKey m e.source (l ++ [(e.destination, e.weight)]))

/-- The function `GraphAlgorithms.buildAdjacencyList` of `src/client/lib/graphAlgorithms.ts`. -/
def buildAdjacencyList (nodes : List GraphNode) (edges : List GraphEdge) : Option AdjList :=
  addEdges edges (initAdj nodes)

/-- Per-node init of the `src/unnamed/part_001` builder:
`if (!adjList[node.id]) adjList[node.id] = []`. -/
def initAdjB (nodes : List GraphNode) : AdjList :=
  nodes.foldl (fun m n =>
    match lookup m n.id with
    | none => setKey m n.id ([] : List (String × Int))
    | some _ => m) []

/-- Edge phase of the `part_001` builder: a missing source key is first
created (`if (!adjList[edge.source]) adjList[edge.source] = []`), then pushed to. -/
def addEdgesB : List GraphEdge → AdjList → AdjList
  | [], m => m
  | e :: es, m =>
    let l := (lookup m e.source).getD []
    addEdgesB es (setKey m e.source (l ++ [(e.destination, e.weight)]))

/-- The function `buildAdjacencyList` of `src/unnamed/part_001` (tolerant variant). -/
def buildAdjacencyListB (nodes : List GraphNode) (edges : List GraphEdge) : AdjList :=
  addEdgesB edges (initAdjB nodes)

/-! ### Dijkstra (client-lib variant) -/

structure DState where
  distances : List (String × Dist)
  previous : List (String × Option String)
  visited : List String
  steps : List AlgorithmStep
  iteration : Nat
  deriving Repr

/-- The linear scan
`for (const n of nodes) if (!visited.has(n.id) && distances[n.id] < minDist) ...`.
The accumulator `none` is the initial `minNode = null, minDist = Infinity`;
only finite distances ever pass the `<`, so an assigned accumulator carries a
finite distance. -/
def findMin (dist : List (String × Dist)) (visited : List String) :
    List GraphNode → Option (String × Int) → Option (String × Int)
  | [], acc => acc
  | n :: ns, acc =>
    if n.id ∈ visited then findMin dist visited ns acc
    else
      match lookup dist n.id, acc with
      | some (Dist.fin a), none => findMin dist visited ns (some (n.id, a))
      | some (Dist.fin a), some (m, b) =>
        if a < b then findMin dist visited ns (some (n.id, a))
        else findMin dist visited ns (some (m, b))
      | _, acc' => findMin dist visited ns acc'

/-- The body of a successful Dijkstra relaxation: update both maps and push
the `relax` step whose snapshot is the updated maps. -/
def relaxWrite (m nb : String) (nd : Int) (s : DState) : DState :=
  let d := setKey s.distances nb (Dist.fin nd)
  let p := setKey s.previous nb (some m)
  ⟨d, p, s.visited,
    s.steps ++ [⟨StepType.relax, s.iteration, none, some (m, nb), d, p, some [nb],
      s!"Relax {m}→{nb}, new dist={nd}"⟩],
    s.iteration⟩

/-- One turn of the neighbor loop of the selected node `m`:
`const newDist = distances[minNode] + weight; if (newDist < distances[neighbor]) ...`.
When `distances[minNode]` is `Infinity` the candidate is `Infinity` and the
`<` test is false, so nothing happens — the `| _ => s` branch. -/
def relaxOne (m : String) (nw : String × Int) (s : DState) : DState :=
  match lookup s.distances m with
  | some (Dist.fin a) =>
    if jsAddLt (some (Dist.fin a)) nw.2 (lookup s.distances nw.1) then
      relaxWrite m nw.1 (a + nw.2) s
    else s
  | _ => s

def relaxNeighbors (m : String) : List (String × Int) → DState → DState
  | [], s => s
  | nw :: nbrs, s => relaxNeighbors m nbrs (relaxOne m nw s)

/-- The statement `visited.add(minNode)` followed by pushing the `select` step. -/
def selectPush (m : String) (md : Int) (s : DState) : DState :=
  ⟨s.distances, s.previous, m :: s.visited,
    s.steps ++ [⟨StepType.select, s.iteration, some m, none, s.distances, s.previous,
      none, s!"Select {m} with dist = {md}"⟩],
    s.iteration⟩

/-- The statement `iteration++` at the end of a selection-loop turn. -/
def bumpIter (s : DState) : DState :=
  ⟨s.distances, s.previous, s.visited, s.steps, s.iteration + 1⟩

/-- The `while (visited.size < nodes.length)` loop.  Each iteration either
breaks or adds one fresh id to `visited`, so the loop runs at most
`nodes.length` times; with fuel `nodes.length + 1` the fuel never runs out
while the guard still holds, and the embedding coincides with the JS loop.
`if (!minNode) break` also fires on the empty string (JS falsiness). -/
def dijkstraLoop (nodes : List GraphNode) (adj : AdjList) : Nat → DState → DState
  | 0, s => s
  | Nat.succ fuel, s =>
    if s.visited.length < nodes.length then
      match findMin s.distances s.visited nodes none with
      | none => s
      | some (m, md) =>
        if m = "" then s
        else
          dijkstraLoop nodes adj fuel
            (bumpIter (relaxNeighbors m ((lookup adj m).getD []) (selectPush m md s)))
    else s

/-- Shortest-path-tree reconstruction of the client-lib file:
`if (previous[n.id])` is a truthiness test, so a `null` — or empty-string —
predecessor is skipped; then the first matching edge of the edge list is taken. -/
def buildTreeGo (edges : List GraphEdge) (prev : List (String × Option String)) :
    List GraphNode → List GraphEdge → List GraphEdge
  | [], acc => acc
  | n :: ns, acc =>
    match lookup prev n.id with
    | some (some p) =>
      if p = "" then buildTreeGo edges prev ns acc
      else
        match edges.find? (fun e => decide (e.source = p ∧ e.destination = n.id)) with
        | some e => buildTreeGo edges prev ns (acc ++ [e])
        | none => buildTreeGo edges prev ns acc
    | _ => buildTreeGo edges prev ns acc

def buildTree (nodes : List GraphNode) (edges : List GraphEdge)
    (prev : List (String × Option String)) : List GraphEdge :=
  buildTreeGo edges prev nodes []

/-- The initial Dijkstra state: initialized maps, the `initial` step pushed,
`iteration = 1`, nothing visited. -/
def dInitState (nodes : List GraphNode) (sourceNode : String) : DState :=
  ⟨initDist nodes sourceNode, initPrev nodes, [],
    [⟨StepType.initial, 0, none, none, initDist nodes sourceNode, initPrev nodes, none,
      s!"Initialize Dijkstra: {sourceNode}=0, others=∞"⟩], 1⟩

/-- Tree reconstruction and the final `complete` step of `dijkstra`. -/
def dijkstraResult (nodes : List GraphNode) (edges : List GraphEdge) (sf : DState) :
    AlgorithmResult :=
  ⟨sf.distances, sf.previous,
    sf.steps ++ [⟨StepType.complete, sf.iteration, none, none, sf.distances, sf.previous,
      none, "Dijkstra complete"⟩],
    false, buildTree nodes edges sf.previous⟩

/-- The function `GraphAlgorithms.dijkstra` of `src/client/lib/graphAlgorithms.ts`. -/
def dijkstra (nodes : List GraphNode) (edges : List GraphEdge) (sourceNode : String) :
    Option AlgorithmResult :=
  match buildAdjacencyList nodes edges with
  | none => none
  | some adj =>
    some (dijkstraResult nodes edges
      (dijkstraLoop nodes adj (nodes.length + 1) (dInitState nodes sourceNode)))

/-! ### Bellman-Ford (client-lib variant) -/

structure BFState where
  distances : List (String × Dist)
  previous : List (String × Option String)
  steps : List AlgorithmStep
  deriving Repr

/-- The body of a successful Bellman-Ford relaxation (client-lib step message). -/
def bfWrite (i : Nat) (src dst : String) (nd : Int) (s : BFState) : BFState :=
  let d := setKey s.distances dst (Dist.fin nd)
  let p := setKey s.previous dst (some src)
  ⟨d, p, s.steps ++ [⟨StepType.relax, i, none, some (src, dst), d, p, some [dst],
    s!"Iteration {i}: Relax {src}→{dst}"⟩]⟩

/-- One turn of a Bellman-Ford pass over edge `e`.  The guard is `bfGuard`;
the match on the source read realises it: `some inf` fails the first
conjunct, `none` (undefined) makes the sum `NaN` and the comparison false. -/
def bfRelaxOne (i : Nat) (e : GraphEdge) (acc : BFState × Bool) : BFState × Bool :=
  match lookup acc.1.distances e.source with
  | some (Dist.fin a) =>
    if jsAddLt (some (Dist.fin a)) e.weight (lookup acc.1.distances e.destination) then
      (bfWrite i e.source e.destination (a + e.weight) acc.1, true)
    else acc
  | _ => acc

def bfPassGo (i : Nat) : List GraphEdge → BFState × Bool → BFState × Bool
  | [], acc => acc
  | e :: es, acc => bfPassGo i es (bfRelaxOne i e acc)

def bfPass (i : Nat) (edges : List GraphEdge) (s0 : BFState) : BFState × Bool :=
  bfPassGo i edges (s0, false)

/-- Pushing the no-op `update` step of a pass that relaxed nothing. -/
def pushUpdate (i : Nat) (s : BFState) : BFState :=
  ⟨s.distances, s.previous,
    s.steps ++ [⟨StepType.update, i, none, none, s.distances, s.previous, none,
      s!"Iteration {i}: No updates"⟩]⟩

/-- The loop `for (let i = 1; i <= nodes.length - 1; i++)` with per-pass break on no relaxation:
recursion on the number of remaining passes, `i` the 1-based pass index. -/
def bfLoop (edges : List GraphEdge) : Nat → Nat → BFState → BFState
  | 0, _, s => s
  | Nat.succ r, i, s =>
    match bfPass i edges s with
    | (s1, true) => bfLoop edges r (i + 1) s1
    | (s1, false) => pushUpdate i s1

/-- The initial Bellman-Ford state: initialized maps, `initial` step pushed. -/
def bfInitState (nodes : List GraphNode) (sourceNode : String) : BFState :=
  ⟨initDist nodes sourceNode, initPrev nodes,
    [⟨StepType.initial, 0, none, none, initDist nodes sourceNode, initPrev nodes, none,
      s!"Initialize Bellman-Ford: {sourceNode}=0, others=∞"⟩]⟩

/-- Initialization, initial step and the relaxation passes of
`GraphAlgorithms.bellmanFord` (client-lib). -/
def bfAfterPasses (nodes : List GraphNode) (edges : List GraphEdge) (sourceNode : String) :
    BFState :=
  bfLoop edges (nodes.length - 1) 1 (bfInitState nodes sourceNode)

/-- The post-pass negative-cycle scan of the client-lib file:
first edge with `distances[source] + weight < distances[destination]`. -/
def cycleEdge (dist : List (String × Dist)) (edges : List GraphEdge) : Option GraphEdge :=
  edges.find? (fun e => jsAddLt (lookup dist e.source) e.weight (lookup dist e.destination))

/-- The abort branch of `bellmanFord`: `negative_cycle` step naming the found
edge, `hasNegativeCycle = true`, and the (never filled) empty tree. -/
def bfNegResult (nodes : List GraphNode) (s : BFState) (e : GraphEdge) : AlgorithmResult :=
  let esrc := e.source
  let edst := e.destination
  ⟨s.distances, s.previous,
    s.steps ++ [⟨StepType.negative_cycle, nodes.length, none, some (esrc, edst),
      s.distances, s.previous, none,
      s!"⚠️ Negative cycle detected at {esrc}→{edst}"⟩],
    true, []⟩

/-- The normal completion branch of `bellmanFord`. -/
def bfCompleteResult (nodes : List GraphNode) (edges : List GraphEdge) (s : BFState) :
    AlgorithmResult :=
  ⟨s.distances, s.previous,
    s.steps ++ [⟨StepType.complete, nodes.length, none, none, s.distances, s.previous, none,
      "Bellman-Ford complete — no negative cycle"⟩],
    false, buildTree nodes edges s.previous⟩

/-- The function `GraphAlgorithms.bellmanFord` of `src/client/lib/graphAlgorithms.ts`. -/
def bellmanFord (nodes : List GraphNode) (edges : List GraphEdge) (sourceNode : String) :
    AlgorithmResult :=
  match cycleEdge (bfAfterPasses nodes edges sourceNode).distances edges with
  | some e => bfNegResult nodes (bfAfterPasses nodes edges sourceNode) e
  | none => bfCompleteResult nodes edges (bfAfterPasses nodes edges sourceNode)

/-! ### Bellman-Ford (`src/unnamed/part_001` variant) -/

/-- The body of a successful Bellman-Ford relaxation (`part_001` step
message; the `part_001` pass differs from `bfPass` only in this message —
`i` is the value of its `iteration` variable, the 1-based pass number). -/
def bfWriteB (i : Nat) (src dst : String) (nd : Int) (s : BFState) : BFState :=
  let d := setKey s.distances dst (Dist.fin nd)
  let p := setKey s.previous dst (some src)
  ⟨d, p, s.steps ++ [⟨StepType.relax, i, none, some (src, dst), d, p, some [dst],
    s!"Iteration {i}: Relax {src}→{dst}, distance = {nd}"⟩]⟩

def bfRelaxOneB (i : Nat) (e : GraphEdge) (acc : BFState × Bool) : BFState × Bool :=
  match lookup acc.1.distances e.source with
  | some (Dist.fin a) =>
    if jsAddLt (some (Dist.fin a)) e.weight (lookup acc.1.distances e.destination) then
      (bfWriteB i e.source e.destination (a + e.weight) acc.1, true)
    else acc
  | _ => acc

def bfPassGoB (i : Nat) : List GraphEdge → BFState × Bool → BFState × Bool
  | [], acc => acc
  | e :: es, acc => bfPassGoB i es (bfRelaxOneB i e acc)

def bfPassB (i : Nat) (edges : List GraphEdge) (s0 : BFState) : BFState × Bool :=
  bfPassGoB i edges (s0, false)

/-- The `part_001` pass loop: no break — a pass with no relaxation pushes an
`update` step (same record as the client-lib one, since its `iteration`
variable equals the 1-based pass index `i`) and the loop continues. -/
def bfLoopB (edges : List GraphEdge) : Nat → Nat → BFState → BFState
  | 0, _, s => s
  | Nat.succ r, i, s =>
    match bfPassB i edges s with
    | (s1, true) => bfLoopB edges r (i + 1) s1
    | (s1, false) => bfLoopB edges r (i + 1) (pushUpdate i s1)

/-- Tree reconstruction of `part_001`: the predecessor test is
`previous[n.id] !== null && previous[n.id] !== undefined` (no truthiness
quirk), then the first matching edge is taken. -/
def buildTreeGoB (edges : List GraphEdge) (prev : List (String × Option String)) :
    List GraphNode → List GraphEdge → List GraphEdge
  | [], acc => acc
  | n :: ns, acc =>
    match lookup prev n.id with
    | some (some p) =>
      match edges.find? (fun e => decide (e.source = p ∧ e.destination = n.id)) with
      | some e => buildTreeGoB edges prev ns (acc ++ [e])
      | none => buildTreeGoB edges prev ns acc
    | _ => buildTreeGoB edges prev ns acc

def buildTreeB (nodes : List GraphNode) (edges : List GraphEdge)
    (prev : List (String × Option String)) : List GraphEdge :=
  buildTreeGoB edges prev nodes []

/-- The function `bellmanFord` of `src/unnamed/part_001`: after the passes, the cycle scan
(with the `!== Infinity` guard) sets a flag and breaks, but the function then
still builds the shortest-path tree and pushes a `complete` step.  After the
loop its `iteration` variable holds `(nodes.length - 1) + 1`. -/
def bellmanFordB (nodes : List GraphNode) (edges : List GraphEdge) (sourceNode : String) :
    AlgorithmResult :=
  let d0 := initDist nodes sourceNode
  let p0 := initPrev nodes
  let s := bfLoopB edges (nodes.length - 1) 1
    ⟨d0, p0, [⟨StepType.initial, 0, none, none, d0, p0, none,
      s!"Initialize: Set distance to {sourceNode} as 0, others as ∞"⟩]⟩
  let it := nodes.length - 1 + 1
  let tree := buildTreeB nodes edges s.previous
  match edges.find? (fun e => bfGuard (lookup s.distances e.source) e.weight
      (lookup s.distances e.destination)) with
  | some e =>
    let esrc := e.source
    let edst := e.destination
    ⟨s.distances, s.previous,
      s.steps ++ [⟨StepType.negative_cycle, it, none, some (esrc, edst),
        s.distances, s.previous, none,
        s!"⚠️ Negative weight cycle detected: {esrc}→{edst}"⟩,
        ⟨StepType.complete, it, none, none, s.distances, s.previous, none,
          "Algorithm complete - Negative cycle detected"⟩],
      true, tree⟩
  | none =>
    ⟨s.distances, s.previous,
      s.steps ++ [⟨StepType.complete, it, none, none, s.distances, s.previous, none,
        "Algorithm complete"⟩],
      false, tree⟩

/-! ### Invariant predicates -/

/-- The §3 data-model invariant on a distances/previous pair: a `none`
predecessor means the node is the source at distance 0 or is at infinite
distance; a real predecessor means a finite distance. -/
def Inv (src : String) (dist : List (String × Dist)) (prev : List (String × Option String)) :
    Prop :=
  ∀ k p, lookup prev k = some p →
    (p = none →
      lookup dist k = some Dist.inf ∨ (k = src ∧ lookup dist k = some (Dist.fin 0))) ∧
    (∀ q, p = some q → ∃ z, lookup dist k = some (Dist.fin z))

/-- The key set of the map is exactly the id set of the input node list. -/
def KeysEq {α : Type} (nodes : List GraphNode) (m : List (String × α)) : Prop :=
  ∀ k, k ∈ keys m ↔ k ∈ nodes.map GraphNode.id

def GoodMaps (nodes : List GraphNode) (src : String) (dist : List (String × Dist))
    (prev : List (String × Option String)) : Prop :=
  Inv src dist prev ∧ KeysEq nodes dist ∧ KeysEq nodes prev

/-! ### Concrete inputs used by claim theorems, witnesses and counterexamples -/

/-- The spec §8 concrete scenario: nodes A, B, C. -/
def cNodesABC : List GraphNode := [⟨"A"⟩, ⟨"B"⟩, ⟨"C"⟩]

/-- The spec §8 concrete scenario: edges (A,B,4), (A,C,1), (C,B,1). -/
def cEdgesABC : List GraphEdge := [⟨"A", "B", 4⟩, ⟨"A", "C", 1⟩, ⟨"C", "B", 1⟩]

/-- A node list containing a node whose id is the empty string. -/
def cNodesEmptyId : List GraphNode := [⟨"A"⟩, ⟨""⟩, ⟨"B"⟩]

/-- Non-negative edges routing the shortest A→B path through the
empty-string node. -/
def cEdgesEmptyId : List GraphEdge := [⟨"A", "", 1⟩, ⟨"", "B", 1⟩, ⟨"A", "B", 5⟩]

def cNodesAB : List GraphNode := [⟨"A"⟩, ⟨"B"⟩]

/-- The spec §8 negative-cycle scenario: A→B weight −1, B→A weight −1. -/
def cEdgesNegCycle : List GraphEdge := [⟨"A", "B", -1⟩, ⟨"B", "A", -1⟩]

/-! ### Association-list lemmas -/

theorem lookup_nil {α : Type} (q : String) : lookup ([] : List (String × α)) q = none := rfl

theorem lookup_cons {α : Type} (a : String) (b : α) (m : List (String × α)) (q : String) :
    lookup ((a, b) :: m) q = if a = q then some b else lookup m q := rfl

theorem setKey_nil {α : Type} (k : String) (v : α) : setKey [] k v = [(k, v)] := rfl

theorem setKey_cons {α : Type} (a : String) (b : α) (m : List (String × α)) (k : String) (v : α) :
    setKey ((a, b) :: m) k v = if a = k then (a, v) :: m else (a, b) :: setKey m k v := rfl

theorem keys_nil {α : Type} : keys ([] : List (String × α)) = [] := rfl

theorem keys_cons {α : Type} (a : String) (b : α) (m : List (String × α)) :
    keys ((a, b) :: m) = a :: keys m := rfl

theorem lookup_setKey {α : Type} (m : List (String × α)) (k : String) (v : α) (q : String) :
    lookup (setKey m k v) q = if k = q then some v else lookup m q := by
  induction m with
  | nil =>
    rw [setKey_nil, lookup_cons, lookup_nil]
  | cons e m ih =>
    obtain ⟨a, b⟩ := e
    rw [setKey_cons]
    by_cases hak : a = k
    · subst hak
      rw [if_pos rfl, lookup_cons, lookup_cons]
      by_cases haq : a = q <;> simp [haq]
    · rw [if_neg hak, lookup_cons, lookup_cons, ih]
      by_cases haq : a = q
      · have hkq : ¬ k = q := by
          rw [← haq]
          exact fun h => hak h.symm
        simp [haq, hkq]
      · simp [haq]

theorem mem_keys_iff_lookup {α : Type} (m : List (String × α)) (q : String) :
    q ∈ keys m ↔ ∃ v, lookup m q = some v := by
  induction m with
  | nil => simp [keys_nil, lookup_nil]
  | cons e m ih =>
    obtain ⟨a, b⟩ := e
    rw [keys_cons, lookup_cons, List.mem_cons]
    by_cases haq : a = q
    · simp [haq]
    · have hqa : ¬ q = a := fun h => haq h.symm
      simp [haq, hqa, ih]

theorem keys_setKey_of_mem {α : Type} (m : List (String × α)) (k : String) (v : α)
    (h : k ∈ keys m) : keys (setKey m k v) = keys m := by
  induction m with
  | nil => simp [keys_nil] at h
  | cons e m ih =>
    obtain ⟨a, b⟩ := e
    rw [setKey_cons]
    by_cases hak : a = k
    · rw [if_pos hak, keys_cons, keys_cons]
    · rw [if_neg hak, keys_cons, keys_cons, ih]
      rw [keys_cons, List.mem_cons] at h
      rcases h with h | h
      · exact absurd h.symm hak
      · exact h

theorem keys_setKey_of_not_mem {α : Type} (m : List (String × α)) (k : String) (v : α)
    (h : k ∉ keys m) : keys (setKey m k v) = keys m ++ [k] := by
  induction m with
  | nil => simp [setKey_nil, keys_nil, keys_cons]
  | cons e m ih =>
    obtain ⟨a, b⟩ := e
    rw [keys_cons, List.mem_cons] at h
    push_neg at h
    have hak : ¬ a = k := fun hh => h.1 hh.symm
    rw [setKey_cons, if_neg hak, keys_cons, keys_cons, ih h.2]
    rfl

theorem mem_keys_setKey {α : Type} (m : List (String × α)) (k : String) (v : α) (q : String) :
    q ∈ keys (setKey m k v) ↔ q = k ∨ q ∈ keys m := by
  by_cases h : k ∈ keys m
  · rw [keys_setKey_of_mem m k v h]
    constructor
    · exact Or.inr
    · rintro (rfl | hq)
      · exact h
      · exact hq
  · rw [keys_setKey_of_not_mem m k v h, List.mem_append, List.mem_singleton, or_comm]

theorem keys_nodup_setKey {α : Type} (m : List (String × α)) (k : String) (v : α)
    (h : (keys m).Nodup) : (keys (setKey m k v)).Nodup := by
  by_cases hk : k ∈ keys m
  · rw [keys_setKey_of_mem m k v hk]
    exact h
  · rw [keys_setKey_of_not_mem m k v hk]
    simp [List.nodup_append, h, hk]

/-- Value written by a per-node initialization fold: the last write for a key
`q` that occurs among the node ids is `g q`; other keys are untouched. -/
theorem lookup_foldl_setKey {α : Type} (g : String → α) (nodes : List GraphNode)
    (m : List (String × α)) (q : String) :
    lookup (nodes.foldl (fun m n => setKey m n.id (g n.id)) m) q =
      if q ∈ nodes.map GraphNode.id then some (g q) else lookup m q := by
  induction nodes generalizing m with
  | nil => simp
  | cons n ns ih =>
    simp only [List.foldl_cons, List.map_cons, List.mem_cons]
    rw [ih]
    by_cases hq : q ∈ ns.map GraphNode.id
    · simp [hq]
    · by_cases hn : q = n.id
      · subst hn
        simp [hq, lookup_setKey]
      · have : ¬ n.id = q := fun h => hn h.symm
        simp [hq, hn, lookup_setKey, this]

theorem lookup_initDist (nodes : List GraphNode) (src : String) (q : String) :
    lookup (initDist nodes src) q =
      if q ∈ nodes.map GraphNode.id then some (if q = src then Dist.fin 0 else Dist.inf)
      else none := by
  have := lookup_foldl_setKey (fun x => if x = src then Dist.fin 0 else Dist.inf) nodes [] q
  simpa [initDist, lookup] using this

theorem lookup_initPrev (nodes : List GraphNode) (q : String) :
    lookup (initPrev nodes) q =
      if q ∈ nodes.map GraphNode.id then some none else none := by
  have := lookup_foldl_setKey (fun _ => (none : Option String)) nodes [] q
  simpa [initPrev, lookup] using this

theorem lookup_initAdj (nodes : List GraphNode) (q : String) :
    lookup (initAdj nodes) q =
      if q ∈ nodes.map GraphNode.id then some ([] : List (String × Int)) else none := by
  have := lookup_foldl_setKey (fun _ => ([] : List (String × Int))) nodes [] q
  simpa [initAdj, lookup] using this

/-! ### Engine invariants -/

theorem keysEq_initDist (nodes : List GraphNode) (src : String) :
    KeysEq nodes (initDist nodes src) := by
  intro k
  rw [mem_keys_iff_lookup, lookup_initDist]
  by_cases h : k ∈ nodes.map GraphNode.id <;> simp [h]

theorem keysEq_initPrev (nodes : List GraphNode) : KeysEq nodes (initPrev nodes) := by
  intro k
  rw [mem_keys_iff_lookup, lookup_initPrev]
  by_cases h : k ∈ nodes.map GraphNode.id <;> simp [h]

theorem inv_init (nodes : List GraphNode) (src : String) :
    Inv src (initDist nodes src) (initPrev nodes) := by
  intro k p hk
  rw [lookup_initPrev] at hk
  by_cases h : k ∈ nodes.map GraphNode.id
  · rw [if_pos h] at hk
    injection hk with hk
    subst hk
    refine ⟨fun _ => ?_, fun q hq => by simp at hq⟩
    rw [lookup_initDist, if_pos h]
    by_cases hs : k = src
    · exact Or.inr ⟨hs, by rw [if_pos hs]⟩
    · exact Or.inl (by rw [if_neg hs])
  · rw [if_neg h] at hk
    simp at hk

theorem goodMaps_init (nodes : List GraphNode) (src : String) :
    GoodMaps nodes src (initDist nodes src) (initPrev nodes) :=
  ⟨inv_init nodes src, keysEq_initDist nodes src, keysEq_initPrev nodes⟩

theorem jsAddLt_src_fin {dsrc : Option Dist} {w : Int} {ddst : Option Dist}
    (h : jsAddLt dsrc w ddst = true) : ∃ a, dsrc = some (Dist.fin a) := by
  cases dsrc with
  | none => simp [jsAddLt] at h
  | some d =>
    cases d with
    | inf => simp [jsAddLt] at h
    | fin a => exact ⟨a, rfl⟩

theorem jsAddLt_dst_some {dsrc : Option Dist} {w : Int} {ddst : Option Dist}
    (h : jsAddLt dsrc w ddst = true) : ∃ dv, ddst = some dv := by
  obtain ⟨a, rfl⟩ := jsAddLt_src_fin h
  cases ddst with
  | none => simp [jsAddLt] at h
  | some dv => exact ⟨dv, rfl⟩

/-- A relaxation write (finite distance and real predecessor, to a key
already present in the distances map) preserves `GoodMaps`. -/
theorem goodMaps_write (nodes : List GraphNode) (src : String)
    {dist : List (String × Dist)} {prev : List (String × Option String)}
    (dst q : String) (z : Int)
    (h : GoodMaps nodes src dist prev) (hdst : dst ∈ keys dist) :
    GoodMaps nodes src (setKey dist dst (Dist.fin z)) (setKey prev dst (some q)) := by
  obtain ⟨hinv, hkd, hkp⟩ := h
  refine ⟨?_, ?_, ?_⟩
  · intro k p hk
    rw [lookup_setKey] at hk
    by_cases hdk : dst = k
    · rw [if_pos hdk] at hk
      injection hk with hk
      subst hk
      refine ⟨fun hpn => by simp at hpn, fun q' _ => ?_⟩
      exact ⟨z, by rw [lookup_setKey, if_pos hdk]⟩
    · rw [if_neg hdk] at hk
      obtain ⟨h1, h2⟩ := hinv k p hk
      refine ⟨fun hpn => ?_, fun q' hq' => ?_⟩
      · rcases h1 hpn with hh | ⟨hks, hh⟩
        · exact Or.inl (by rw [lookup_setKey, if_neg hdk]; exact hh)
        · exact Or.inr ⟨hks, by rw [lookup_setKey, if_neg hdk]; exact hh⟩
      · obtain ⟨z', hz'⟩ := h2 q' hq'
        exact ⟨z', by rw [lookup_setKey, if_neg hdk]; exact hz'⟩
  · intro k
    rw [mem_keys_setKey]
    constructor
    · rintro (rfl | hkm)
      · exact (hkd k).1 hdst
      · exact (hkd k).1 hkm
    · intro hkm
      exact Or.inr ((hkd k).2 hkm)
  · intro k
    rw [mem_keys_setKey]
    constructor
    · rintro (rfl | hkm)
      · exact (hkd _).1 hdst
      · exact (hkp k).1 hkm
    · intro hkm
      exact Or.inr ((hkp k).2 hkm)

/-- Composition of two steps-append decompositions. -/
theorem steps_trans {A B C : List AlgorithmStep} {P : AlgorithmStep → Prop}
    (h1 : ∃ t, B = A ++ t ∧ ∀ st ∈ t, P st) (h2 : ∃ t, C = B ++ t ∧ ∀ st ∈ t, P st) :
    ∃ t, C = A ++ t ∧ ∀ st ∈ t, P st := by
  obtain ⟨t1, rfl, hp1⟩ := h1
  obtain ⟨t2, rfl, hp2⟩ := h2
  refine ⟨t1 ++ t2, by rw [List.append_assoc], fun st hst => ?_⟩
  rcases List.mem_append.mp hst with h | h
  exacts [hp1 st h, hp2 st h]

theorem no_new_steps (A : List AlgorithmStep) (P : AlgorithmStep → Prop) :
    ∃ t, A = A ++ t ∧ ∀ st ∈ t, P st :=
  ⟨[], (List.append_nil A).symm, by simp⟩

theorem relaxOne_spec (nodes : List GraphNode) (src m : String) (nw : String × Int)
    (s : DState) (hs : GoodMaps nodes src s.distances s.previous) :
    GoodMaps nodes src (relaxOne m nw s).distances (relaxOne m nw s).previous ∧
    (relaxOne m nw s).visited = s.visited ∧
    (relaxOne m nw s).iteration = s.iteration ∧
    ∃ t, (relaxOne m nw s).steps = s.steps ++ t ∧
      ∀ st ∈ t, st.type = StepType.relax ∧
        GoodMaps nodes src st.distances st.previous := by
  unfold relaxOne
  split
  · rename_i a _
    by_cases hg : jsAddLt (some (Dist.fin a)) nw.2 (lookup s.distances nw.1) = true
    · rw [if_pos hg]
      have hdst : nw.1 ∈ keys s.distances := by
        obtain ⟨dv, hdv⟩ := jsAddLt_dst_some hg
        exact (mem_keys_iff_lookup _ _).mpr ⟨dv, hdv⟩
      have hgood := goodMaps_write nodes src nw.1 m (a + nw.2) hs hdst
      refine ⟨hgood, rfl, rfl, _, rfl, ?_⟩
      intro st hst
      rw [List.mem_singleton] at hst
      subst hst
      exact ⟨rfl, hgood⟩
    · rw [if_neg hg]
      exact ⟨hs, rfl, rfl, no_new_steps _ _⟩
  · exact ⟨hs, rfl, rfl, no_new_steps _ _⟩

theorem relaxNeighbors_spec (nodes : List GraphNode) (src m : String)
    (nbrs : List (String × Int)) :
    ∀ s : DState, GoodMaps nodes src s.distances s.previous →
    GoodMaps nodes src (relaxNeighbors m nbrs s).distances (relaxNeighbors m nbrs s).previous ∧
    (relaxNeighbors m nbrs s).visited = s.visited ∧
    (relaxNeighbors m nbrs s).iteration = s.iteration ∧
    ∃ t, (relaxNeighbors m nbrs s).steps = s.steps ++ t ∧
      ∀ st ∈ t, st.type = StepType.relax ∧
        GoodMaps nodes src st.distances st.previous := by
  induction nbrs with
  | nil => exact fun s hs => ⟨hs, rfl, rfl, no_new_steps _ _⟩
  | cons nw nbrs ih =>
    intro s hs
    obtain ⟨hg1, hv1, hi1, hst1⟩ := relaxOne_spec nodes src m nw s hs
    obtain ⟨hg2, hv2, hi2, hst2⟩ := ih (relaxOne m nw s) hg1
    refine ⟨hg2, ?_, ?_, steps_trans hst1 hst2⟩
    · show (relaxNeighbors m nbrs (relaxOne m nw s)).visited = s.visited
      rw [hv2, hv1]
    · show (relaxNeighbors m nbrs (relaxOne m nw s)).iteration = s.iteration
      rw [hi2, hi1]

theorem dijkstraLoop_spec (nodes : List GraphNode) (adj : AdjList) (src : String) :
    ∀ (fuel : Nat) (s : DState), GoodMaps nodes src s.distances s.previous →
    GoodMaps nodes src (dijkstraLoop nodes adj fuel s).distances
      (dijkstraLoop nodes adj fuel s).previous ∧
    ∃ t, (dijkstraLoop nodes adj fuel s).steps = s.steps ++ t ∧
      ∀ st ∈ t, (st.type = StepType.select ∨ st.type = StepType.relax) ∧
        GoodMaps nodes src st.distances st.previous := by
  intro fuel
  induction fuel with
  | zero => exact fun s hs => ⟨hs, no_new_steps _ _⟩
  | succ fuel ih =>
    intro s hs
    unfold dijkstraLoop
    split
    · split
      · exact ⟨hs, no_new_steps _ _⟩
      · rename_i m md hfm
        split
        · exact ⟨hs, no_new_steps _ _⟩
        · have hgood1 : GoodMaps nodes src (selectPush m md s).distances
              (selectPush m md s).previous := hs
          obtain ⟨hg2, _, _, hst2⟩ :=
            relaxNeighbors_spec nodes src m ((lookup adj m).getD []) (selectPush m md s) hgood1
          obtain ⟨hg3, hst3⟩ :=
            ih (bumpIter (relaxNeighbors m ((lookup adj m).getD []) (selectPush m md s))) hg2
          refine ⟨hg3, ?_⟩
          refine steps_trans (B := (selectPush m md s).steps) ⟨_, rfl, ?_⟩
            (steps_trans ?_ hst3)
          · intro st hst
            rw [List.mem_singleton] at hst
            subst hst
            exact ⟨Or.inl rfl, hs⟩
          · obtain ⟨t, ht, hp⟩ := hst2
            exact ⟨t, ht, fun st hst => ⟨Or.inr (hp st hst).1, (hp st hst).2⟩⟩
    · exact ⟨hs, no_new_steps _ _⟩

theorem bfRelaxOne_spec (nodes : List GraphNode) (src : String) (i : Nat) (e : GraphEdge)
    (acc : BFState × Bool) (hs : GoodMaps nodes src acc.1.distances acc.1.previous) :
    GoodMaps nodes src (bfRelaxOne i e acc).1.distances (bfRelaxOne i e acc).1.previous ∧
    ∃ t, (bfRelaxOne i e acc).1.steps = acc.1.steps ++ t ∧
      ∀ st ∈ t, st.type = StepType.relax ∧
        GoodMaps nodes src st.distances st.previous := by
  unfold bfRelaxOne
  split
  · rename_i a _
    by_cases hg : jsAddLt (some (Dist.fin a)) e.weight (lookup acc.1.distances e.destination)
        = true
    · rw [if_pos hg]
      have hdst : e.destination ∈ keys acc.1.distances := by
        obtain ⟨dv, hdv⟩ := jsAddLt_dst_some hg
        exact (mem_keys_iff_lookup _ _).mpr ⟨dv, hdv⟩
      have hgood := goodMaps_write nodes src e.destination e.source (a + e.weight) hs hdst
      refine ⟨hgood, _, rfl, ?_⟩
      intro st hst
      rw [List.mem_singleton] at hst
      subst hst
      exact ⟨rfl, hgood⟩
    · rw [if_neg hg]
      exact ⟨hs, no_new_steps _ _⟩
  · exact ⟨hs, no_new_steps _ _⟩

theorem bfPassGo_spec (nodes : List GraphNode) (src : String) (i : Nat)
    (es : List GraphEdge) :
    ∀ acc : BFState × Bool, GoodMaps nodes src acc.1.distances acc.1.previous →
    GoodMaps nodes src (bfPassGo i es acc).1.distances (bfPassGo i es acc).1.previous ∧
    ∃ t, (bfPassGo i es acc).1.steps = acc.1.steps ++ t ∧
      ∀ st ∈ t, st.type = StepType.relax ∧
        GoodMaps nodes src st.distances st.previous := by
  induction es with
  | nil => exact fun acc hs => ⟨hs, no_new_steps _ _⟩
  | cons e es ih =>
    intro acc hs
    obtain ⟨hg1, hst1⟩ := bfRelaxOne_spec nodes src i e acc hs
    obtain ⟨hg2, hst2⟩ := ih (bfRelaxOne i e acc) hg1
    exact ⟨hg2, steps_trans hst1 hst2⟩

theorem bfPass_spec (nodes : List GraphNode) (src : String) (i : Nat)
    (edges : List GraphEdge) (s : BFState) (hs : GoodMaps nodes src s.distances s.previous) :
    GoodMaps nodes src (bfPass i edges s).1.distances (bfPass i edges s).1.previous ∧
    ∃ t, (bfPass i edges s).1.steps = s.steps ++ t ∧
      ∀ st ∈ t, st.type = StepType.relax ∧
        GoodMaps nodes src st.distances st.previous :=
  bfPassGo_spec nodes src i edges (s, false) hs

theorem bfLoop_spec (nodes : List GraphNode) (src : String) (edges : List GraphEdge) :
    ∀ (r i : Nat) (s : BFState), GoodMaps nodes src s.distances s.previous →
    GoodMaps nodes src (bfLoop edges r i s).distances (bfLoop edges r i s).previous ∧
    ∃ t, (bfLoop edges r i s).steps = s.steps ++ t ∧
      (∀ st ∈ t, (st.type = StepType.relax ∨ st.type = StepType.update) ∧
        GoodMaps nodes src st.distances st.previous) ∧
      ((∀ st ∈ t, st.type = StepType.relax) ∨
        ∃ t₁ u, t = t₁ ++ [u] ∧ (∀ st ∈ t₁, st.type = StepType.relax) ∧
          u.type = StepType.update) := by
  intro r
  induction r with
  | zero =>
    intro i s hs
    exact ⟨hs, [], by simp [bfLoop], by simp, Or.inl (by simp)⟩
  | succ r ih =>
    intro i s hs
    unfold bfLoop
    obtain ⟨hg1, hst1⟩ := bfPass_spec nodes src i edges s hs
    split
    · rename_i s1 heq
      rw [heq] at hg1 hst1
      obtain ⟨hg2, t₂, ht₂, hp₂, hsh₂⟩ := ih (i + 1) s1 hg1
      obtain ⟨t₁, ht₁, hp₁⟩ := hst1
      refine ⟨hg2, t₁ ++ t₂, by rw [ht₂, ht₁, List.append_assoc], ?_, ?_⟩
      · intro st hst
        rcases List.mem_append.mp hst with h | h
        · exact ⟨Or.inl (hp₁ st h).1, (hp₁ st h).2⟩
        · exact hp₂ st h
      · rcases hsh₂ with hall | ⟨t₃, u, rfl, hp₃, hu⟩
        · refine Or.inl ?_
          intro st hst
          rcases List.mem_append.mp hst with h | h
          exacts [(hp₁ st h).1, hall st h]
        · refine Or.inr ⟨t₁ ++ t₃, u, by rw [List.append_assoc], ?_, hu⟩
          intro st hst
          rcases List.mem_append.mp hst with h | h
          exacts [(hp₁ st h).1, hp₃ st h]
    · rename_i s1 heq
      rw [heq] at hg1 hst1
      obtain ⟨t₁, ht₁, hp₁⟩ := hst1
      refine ⟨hg1, t₁ ++ [⟨StepType.update, i, none, none, s1.distances, s1.previous, none,
        s!"Iteration {i}: No updates"⟩], ?_, ?_, ?_⟩
      · show s1.steps ++ _ = s.steps ++ _
        rw [ht₁, List.append_assoc]
      · intro st hst
        rcases List.mem_append.mp hst with h | h
        · exact ⟨Or.inl (hp₁ st h).1, (hp₁ st h).2⟩
        · rw [List.mem_singleton] at h
          subst h
          exact ⟨Or.inr rfl, hg1⟩
      · refine Or.inr ⟨t₁, _, rfl, fun st hst => (hp₁ st hst).1, rfl⟩

theorem bfAfterPasses_spec (nodes : List GraphNode) (edges : List GraphEdge) (src : String) :
    GoodMaps nodes src (bfAfterPasses nodes edges src).distances
      (bfAfterPasses nodes edges src).previous ∧
    ∃ t, (bfAfterPasses nodes edges src).steps =
        ⟨StepType.initial, 0, none, none, initDist nodes src, initPrev nodes, none,
          s!"Initialize Bellman-Ford: {src}=0, others=∞"⟩ :: t ∧
      (∀ st ∈ t, (st.type = StepType.relax ∨ st.type = StepType.update) ∧
        GoodMaps nodes src st.distances st.previous) ∧
      ((∀ st ∈ t, st.type = StepType.relax) ∨
        ∃ t₁ u, t = t₁ ++ [u] ∧ (∀ st ∈ t₁, st.type = StepType.relax) ∧
          u.type = StepType.update) := by
  have h0 : GoodMaps nodes src (bfInitState nodes src).distances
      (bfInitState nodes src).previous := goodMaps_init nodes src
  obtain ⟨hg, t, ht, hp, hsh⟩ :=
    bfLoop_spec nodes src edges (nodes.length - 1) 1 (bfInitState nodes src) h0
  exact ⟨hg, t, ht, hp, hsh⟩

theorem exists_tail_append {init last : AlgorithmStep} {S T : List AlgorithmStep}
    {P : AlgorithmStep → Prop}
    (hS : S = init :: T) (hT : ∀ st ∈ T, P st) (hlast : P last) :
    ∃ t, S ++ [last] = init :: t ∧ ∀ st ∈ t, P st := by
  subst hS
  refine ⟨T ++ [last], by simp, ?_⟩
  intro st hst
  rcases List.mem_append.mp hst with h | h
  · exact hT st h
  · rw [List.mem_singleton] at h
    subst h
    exact hlast

/-- Any result actually returned by `dijkstra` satisfies `GoodMaps` in its
final maps and in every step snapshot, and its step list starts with the
`initial` step carrying the initialized maps. -/
theorem dijkstra_some_spec (nodes : List GraphNode) (edges : List GraphEdge) (src : String)
    (r : AlgorithmResult) (hr : dijkstra nodes edges src = some r) :
    GoodMaps nodes src r.distances r.previous ∧
    ∃ t, r.steps =
        ⟨StepType.initial, 0, none, none, initDist nodes src, initPrev nodes, none,
          s!"Initialize Dijkstra: {src}=0, others=∞"⟩ :: t ∧
      ∀ st ∈ t, GoodMaps nodes src st.distances st.previous := by
  unfold dijkstra at hr
  cases hadj : buildAdjacencyList nodes edges with
  | none =>
    rw [hadj] at hr
    cases hr
  | some adj =>
    rw [hadj] at hr
    injection hr with hr
    subst hr
    obtain ⟨hg, t, ht, hp⟩ := dijkstraLoop_spec nodes adj src (nodes.length + 1)
      (dInitState nodes src) (goodMaps_init nodes src)
    have ht' : (dijkstraLoop nodes adj (nodes.length + 1) (dInitState nodes src)).steps
        = ⟨StepType.initial, 0, none, none, initDist nodes src, initPrev nodes, none,
            s!"Initialize Dijkstra: {src}=0, others=∞"⟩ :: t := ht
    refine ⟨hg, exists_tail_append
      (P := fun st => GoodMaps nodes src st.distances st.previous) ht'
      (fun st h => (hp st h).2) hg⟩

/-- The result of `bellmanFord` satisfies `GoodMaps` in its final maps and in
every step snapshot, and its step list starts with the `initial` step
carrying the initialized maps. -/
theorem bellmanFord_spec (nodes : List GraphNode) (edges : List GraphEdge) (src : String) :
    GoodMaps nodes src (bellmanFord nodes edges src).distances
      (bellmanFord nodes edges src).previous ∧
    ∃ t, (bellmanFord nodes edges src).steps =
        ⟨StepType.initial, 0, none, none, initDist nodes src, initPrev nodes, none,
          s!"Initialize Bellman-Ford: {src}=0, others=∞"⟩ :: t ∧
      ∀ st ∈ t, GoodMaps nodes src st.distances st.previous := by
  obtain ⟨hg, t, ht, hp, _⟩ := bfAfterPasses_spec nodes edges src
  unfold bellmanFord
  split
  · exact ⟨hg, exists_tail_append
      (P := fun st => GoodMaps nodes src st.distances st.previous) ht
      (fun st h => (hp st h).2) hg⟩
  · exact ⟨hg, exists_tail_append
      (P := fun st => GoodMaps nodes src st.distances st.previous) ht
      (fun st h => (hp st h).2) hg⟩

/-! ### Claim theorems -/

/-- C1: the claim says that on every graph with non-negative weights the
final distances of `dijkstra` and `bellmanFord` agree.  The code violates
it: on the all-non-negative graph with nodes [A, "", B], edges
[(A,"",1), ("",B,1), (A,B,5)] and source A, `dijkstra` reports B ↦ 5 while
`bellmanFord` reports B ↦ 2.  The cause is the selection-loop break
`if (!minNode) break`, which treats the selected empty-string node id as
null (JS falsiness) and aborts the loop before relaxing its edges; the
`part_001` copy of the engine uses the intended check
`minNode === null || minDist === Infinity`. -/
theorem claim_C1 :
    cEdgesEmptyId.all (fun e => decide (0 ≤ e.weight)) = true ∧
    (dijkstra cNodesEmptyId cEdgesEmptyId "A").map (fun r => lookup r.distances "B")
      = some (some (Dist.fin 5)) ∧
    lookup (bellmanFord cNodesEmptyId cEdgesEmptyId "A").distances "B"
      = some (Dist.fin 2) := by
  refine ⟨by decide, by decide, by decide⟩

/-- C4: on nodes [A,B,C], edges [(A,B,4),(A,C,1),(C,B,1)], source A,
`dijkstra` returns distances A=0, C=1, B=2, previous A=none, C=A, B=C, and
the shortest-path tree [(C,B,1), (A,C,1)] in that order. -/
theorem claim_C4 :
    (dijkstra cNodesABC cEdgesABC "A").map (fun r => lookup r.distances "A")
      = some (some (Dist.fin 0)) ∧
    (dijkstra cNodesABC cEdgesABC "A").map (fun r => lookup r.distances "C")
      = some (some (Dist.fin 1)) ∧
    (dijkstra cNodesABC cEdgesABC "A").map (fun r => lookup r.distances "B")
      = some (some (Dist.fin 2)) ∧
    (dijkstra cNodesABC cEdgesABC "A").map (fun r => lookup r.previous "A")
      = some (some none) ∧
    (dijkstra cNodesABC cEdgesABC "A").map (fun r => lookup r.previous "C")
      = some (some (some "A")) ∧
    (dijkstra cNodesABC cEdgesABC "A").map (fun r => lookup r.previous "B")
      = some (some (some "C")) ∧
    (dijkstra cNodesABC cEdgesABC "A").map (fun r => r.shortestPathTree)
      = some [⟨"C", "B", 1⟩, ⟨"A", "C", 1⟩] := by
  refine ⟨by decide, by decide, by decide, by decide, by decide, by decide, by decide⟩

/-- C2 counterexample: the `part_001` copy of the engine violates the claim.
On the negative-cycle input its post-pass scan finds an edge (it sets
`hasNegativeCycle = true`), yet it still builds and returns a non-empty
shortest-path tree and terminates with a `complete` step after the
`negative_cycle` step. -/
theorem claim_C2_cex :
    (bellmanFordB cNodesAB cEdgesNegCycle "A").hasNegativeCycle = true ∧
    (bellmanFordB cNodesAB cEdgesNegCycle "A").shortestPathTree
      = [⟨"B", "A", -1⟩, ⟨"A", "B", -1⟩] ∧
    ((bellmanFordB cNodesAB cEdgesNegCycle "A").steps.getLast?).map (fun st => st.type)
      = some StepType.complete := by
  refine ⟨by decide, by decide, by decide⟩

/-- C3 counterexample: the `part_001` copy of the engine does not stop early.
On nodes [A,B,C] with no edges its first pass relaxes nothing, yet it runs
the second pass as well, emitting two no-op `update` steps (pass iterations
1 and 2). -/
theorem claim_C3_cex :
    (bellmanFordB cNodesABC [] "A").steps.map (fun st => (st.type, st.iteration))
      = [(StepType.initial, 0), (StepType.update, 1), (StepType.update, 2),
         (StepType.complete, 3)] := by
  decide

/-- C5 counterexample: on a malformed edge whose source id "B" is not in the
node list [A], the client-lib builder fails (`adjList[e.source].push` throws
on `undefined`), and the tolerant `part_001` builder returns a mapping with
an extra entry "B" — not exactly one entry per node. -/
theorem claim_C5_cex :
    buildAdjacencyList [⟨"A"⟩] [⟨"B", "A", 1⟩] = none ∧
    buildAdjacencyListB [⟨"A"⟩] [⟨"B", "A", 1⟩] = [("A", []), ("B", [("A", 1)])] := by
  refine ⟨by decide, by decide⟩

/-- C6 counterexample: with the source "S" absent from the node list,
`bellmanFord` emits a no-op `update` step and a `complete` step beyond the
`initial` step, and `dijkstra` fails (rather than degrading) when an edge
references an unknown source node. -/
theorem claim_C6_cex :
    (bellmanFord cNodesAB [] "S").steps.map (fun st => st.type)
      = [StepType.initial, StepType.update, StepType.complete] ∧
    dijkstra [⟨"A"⟩] [⟨"B", "A", 1⟩] "S" = none := by
  refine ⟨by decide, by decide⟩

/-- C9 counterexample: on the single-node graph [A] with no edges and source
A, `dijkstra` emits a `select` step between the `initial` and `complete`
steps — the step sequence is not `initial` immediately followed by
`complete`. -/
theorem claim_C9_cex :
    (dijkstra [⟨"A"⟩] [] "A").map (fun r => r.steps.map (fun st => st.type))
      = some [StepType.initial, StepType.select, StepType.complete] := by
  decide

theorem initDist_snapshot (nodes : List GraphNode) (src : String) :
    (src ∈ nodes.map GraphNode.id → lookup (initDist nodes src) src = some (Dist.fin 0)) ∧
    (∀ k d, lookup (initDist nodes src) k = some d →
      (d ≠ Dist.inf ↔ (k = src ∧ d = Dist.fin 0))) := by
  constructor
  · intro h
    rw [lookup_initDist, if_pos h, if_pos rfl]
  · intro k d hd
    rw [lookup_initDist] at hd
    by_cases h : k ∈ nodes.map GraphNode.id
    · rw [if_pos h] at hd
      injection hd with hd
      subst hd
      by_cases hk : k = src
      · rw [if_pos hk]
        exact ⟨fun _ => ⟨hk, rfl⟩, fun _ => by simp⟩
      · rw [if_neg hk]
        exact ⟨fun hne => absurd rfl hne, fun ⟨hks, _⟩ => absurd hks hk⟩
    · rw [if_neg h] at hd
      cases hd

/-- C8: for every run of either algorithm, the first emitted step has kind
`initial`, and its distances snapshot has exactly one finite entry, namely
the source with value 0 — unless the source id is absent from the node
list, in which case every entry of the snapshot is infinite.  (The last
conjunct of each part states both cases at once: an entry is finite exactly
when it is the source entry with value 0, and the source entry is present
with value 0 whenever the source is listed.) -/
theorem claim_C8 : ∀ (nodes : List GraphNode) (edges : List GraphEdge) (src : String),
    (∃ st rest, (bellmanFord nodes edges src).steps = st :: rest ∧
      st.type = StepType.initial ∧
      (src ∈ nodes.map GraphNode.id → lookup st.distances src = some (Dist.fin 0)) ∧
      (∀ k d, lookup st.distances k = some d →
        (d ≠ Dist.inf ↔ (k = src ∧ d = Dist.fin 0)))) ∧
    (∀ r, dijkstra nodes edges src = some r →
      ∃ st rest, r.steps = st :: rest ∧
        st.type = StepType.initial ∧
        (src ∈ nodes.map GraphNode.id → lookup st.distances src = some (Dist.fin 0)) ∧
        (∀ k d, lookup st.distances k = some d →
          (d ≠ Dist.inf ↔ (k = src ∧ d = Dist.fin 0)))) := by
  intro nodes edges src
  constructor
  · obtain ⟨_, t, ht, _⟩ := bellmanFord_spec nodes edges src
    exact ⟨_, t, ht, rfl, (initDist_snapshot nodes src).1, (initDist_snapshot nodes src).2⟩
  · intro r hr
    obtain ⟨_, t, ht, _⟩ := dijkstra_some_spec nodes edges src r hr
    exact ⟨_, t, ht, rfl, (initDist_snapshot nodes src).1, (initDist_snapshot nodes src).2⟩

/-- Witness for C8 at the spec §8 scenario (source "A" present in the list):
the heads of both step sequences are `initial` steps whose snapshot maps the
source to distance 0. -/
theorem claim_C8_witness :
    ((bellmanFord cNodesABC cEdgesABC "A").steps.head?).map
        (fun st => (st.type, lookup st.distances "A"))
      = some (StepType.initial, some (Dist.fin 0)) ∧
    (dijkstra cNodesABC cEdgesABC "A").map (fun r =>
        (r.steps.head?).map (fun st => (st.type, lookup st.distances "A")))
      = some (some (StepType.initial, some (Dist.fin 0))) := by
  constructor
  · obtain ⟨⟨st, rest, hsr, hty, hsrc, _⟩, _⟩ := claim_C8 cNodesABC cEdgesABC "A"
    rw [hsr]
    simp [hty, hsrc (by decide)]
  · cases hd : dijkstra cNodesABC cEdgesABC "A" with
    | none => exact absurd hd (by decide)
    | some r =>
      obtain ⟨_, hdij⟩ := claim_C8 cNodesABC cEdgesABC "A"
      obtain ⟨st, rest, hsr, hty, hsrc, _⟩ := hdij r hd
      rw [Option.map_some', hsr]
      simp [hty, hsrc (by decide)]

/-- C7: in every emitted step snapshot and in the final maps of both
algorithms, a `none` predecessor implies the node is the source at distance
0 or has infinite distance, and a real predecessor implies a finite
distance (the predicate `Inv`). -/
theorem claim_C7 : ∀ (nodes : List GraphNode) (edges : List GraphEdge) (src : String),
    ((∀ st ∈ (bellmanFord nodes edges src).steps, Inv src st.distances st.previous) ∧
      Inv src (bellmanFord nodes edges src).distances
        (bellmanFord nodes edges src).previous) ∧
    (∀ r, dijkstra nodes edges src = some r →
      (∀ st ∈ r.steps, Inv src st.distances st.previous) ∧
      Inv src r.distances r.previous) := by
  intro nodes edges src
  constructor
  · obtain ⟨hg, t, ht, hp⟩ := bellmanFord_spec nodes edges src
    refine ⟨?_, hg.1⟩
    intro st hst
    rw [ht] at hst
    rcases List.mem_cons.mp hst with rfl | hmem
    · exact inv_init nodes src
    · exact (hp st hmem).1
  · intro r hr
    obtain ⟨hg, t, ht, hp⟩ := dijkstra_some_spec nodes edges src r hr
    refine ⟨?_, hg.1⟩
    intro st hst
    rw [ht] at hst
    rcases List.mem_cons.mp hst with rfl | hmem
    · exact inv_init nodes src
    · exact (hp st hmem).1

/-- Witness for C7 at the spec §8 scenario, for both algorithms. -/
theorem claim_C7_witness :
    Inv "A" (bellmanFord cNodesABC cEdgesABC "A").distances
      (bellmanFord cNodesABC cEdgesABC "A").previous ∧
    (dijkstra cNodesABC cEdgesABC "A").elim False
      (fun r => Inv "A" r.distances r.previous) := by
  constructor
  · exact ((claim_C7 cNodesABC cEdgesABC "A").1).2
  · cases hd : dijkstra cNodesABC cEdgesABC "A" with
    | none => exact absurd hd (by decide)
    | some r => exact ((claim_C7 cNodesABC cEdgesABC "A").2 r hd).2

theorem keysEq_initAdj (nodes : List GraphNode) : KeysEq nodes (initAdj nodes) := by
  intro k
  rw [mem_keys_iff_lookup, lookup_initAdj]
  by_cases h : k ∈ nodes.map GraphNode.id <;> simp [h]

theorem keys_nodup_foldl {α : Type} (g : String → α) (nodes : List GraphNode) :
    ∀ m : List (String × α), (keys m).Nodup →
      (keys (nodes.foldl (fun m n => setKey m n.id (g n.id)) m)).Nodup := by
  induction nodes with
  | nil => exact fun m h => h
  | cons n ns ih => exact fun m h => ih _ (keys_nodup_setKey _ _ _ h)

/-- The edge phase of the client-lib adjacency builder succeeds when every
edge source is a present key, leaves the key list unchanged, and appends
each edge to its source entry in edge-list order. -/
theorem addEdges_spec (es : List GraphEdge) :
    ∀ m : AdjList, (∀ e ∈ es, e.source ∈ keys m) →
    ∃ m2, addEdges es m = some m2 ∧ keys m2 = keys m ∧
      ∀ k, lookup m2 k = (lookup m k).map (fun l =>
        l ++ (es.filter (fun e => decide (e.source = k))).map
          (fun e => (e.destination, e.weight))) := by
  induction es with
  | nil =>
    intro m _
    refine ⟨m, rfl, rfl, fun k => ?_⟩
    cases lookup m k <;> simp
  | cons e es ih =>
    intro m hm
    obtain ⟨l, hl⟩ := (mem_keys_iff_lookup m e.source).mp (hm e (by simp))
    have hkeys : keys (setKey m e.source (l ++ [(e.destination, e.weight)])) = keys m :=
      keys_setKey_of_mem _ _ _ (hm e (by simp))
    have hm' : ∀ e' ∈ es,
        e'.source ∈ keys (setKey m e.source (l ++ [(e.destination, e.weight)])) := by
      intro e' he'
      rw [hkeys]
      exact hm e' (by simp [he'])
    obtain ⟨m2, hm2, hk2, hval⟩ := ih _ hm'
    refine ⟨m2, ?_, by rw [hk2, hkeys], fun k => ?_⟩
    · show addEdges (e :: es) m = some m2
      unfold addEdges
      rw [hl]
      exact hm2
    · rw [hval k, lookup_setKey]
      by_cases hks : e.source = k
      · subst hks
        rw [if_pos rfl, hl]
        simp [List.filter_cons]
      · rw [if_neg hks]
        simp [List.filter_cons, hks]

/-- The full client-lib adjacency builder contract under well-formed edge
sources: defined, exactly one entry per node, entry = outgoing edges in
edge-list order. -/
theorem buildAdjacencyList_spec (nodes : List GraphNode) (edges : List GraphEdge)
    (h : ∀ e ∈ edges, e.source ∈ nodes.map GraphNode.id) :
    ∃ m, buildAdjacencyList nodes edges = some m ∧
      (keys m).Nodup ∧
      (∀ k, k ∈ keys m ↔ k ∈ nodes.map GraphNode.id) ∧
      ∀ k, k ∈ nodes.map GraphNode.id →
        lookup m k = some ((edges.filter (fun e => decide (e.source = k))).map
          (fun e => (e.destination, e.weight))) := by
  have hka := keysEq_initAdj nodes
  have h' : ∀ e ∈ edges, e.source ∈ keys (initAdj nodes) := fun e he => (hka _).mpr (h e he)
  obtain ⟨m, hm, hkeys, hval⟩ := addEdges_spec edges (initAdj nodes) h'
  refine ⟨m, hm, ?_, ?_, ?_⟩
  · rw [hkeys]
    exact keys_nodup_foldl (fun _ => ([] : List (String × Int))) nodes [] (by simp [keys_nil])
  · intro k
    rw [hkeys]
    exact hka k
  · intro k hk
    rw [hval k, lookup_initAdj, if_pos hk]
    simp

theorem dijkstra_eq_some (nodes : List GraphNode) (edges : List GraphEdge) (src : String)
    (adj : AdjList) (h : buildAdjacencyList nodes edges = some adj) :
    dijkstra nodes edges src = some (dijkstraResult nodes edges
      (dijkstraLoop nodes adj (nodes.length + 1) (dInitState nodes src))) := by
  unfold dijkstra
  rw [h]

/-- C10: when every edge endpoint is a listed node id, `dijkstra` returns a
result, and in every emitted step snapshot and final map of both algorithms
the key set equals the input node-id set (`KeysEq`): no key is ever added
or removed after initialization. -/
theorem claim_C10 : ∀ (nodes : List GraphNode) (edges : List GraphEdge) (src : String),
    (∀ e ∈ edges, e.source ∈ nodes.map GraphNode.id ∧
      e.destination ∈ nodes.map GraphNode.id) →
    (∃ r, dijkstra nodes edges src = some r ∧
      (∀ st ∈ r.steps, KeysEq nodes st.distances ∧ KeysEq nodes st.previous) ∧
      KeysEq nodes r.distances ∧ KeysEq nodes r.previous) ∧
    ((∀ st ∈ (bellmanFord nodes edges src).steps,
        KeysEq nodes st.distances ∧ KeysEq nodes st.previous) ∧
      KeysEq nodes (bellmanFord nodes edges src).distances ∧
      KeysEq nodes (bellmanFord nodes edges src).previous) := by
  intro nodes edges src h
  constructor
  · obtain ⟨adj, hadj, _, _, _⟩ := buildAdjacencyList_spec nodes edges (fun e he => (h e he).1)
    have hd := dijkstra_eq_some nodes edges src adj hadj
    obtain ⟨hg, t, ht, hp⟩ := dijkstra_some_spec nodes edges src _ hd
    refine ⟨_, hd, ?_, hg.2.1, hg.2.2⟩
    intro st hst
    rw [ht] at hst
    rcases List.mem_cons.mp hst with rfl | hmem
    · exact ⟨keysEq_initDist nodes src, keysEq_initPrev nodes⟩
    · exact ⟨(hp st hmem).2.1, (hp st hmem).2.2⟩
  · obtain ⟨hg, t, ht, hp⟩ := bellmanFord_spec nodes edges src
    refine ⟨?_, hg.2.1, hg.2.2⟩
    intro st hst
    rw [ht] at hst
    rcases List.mem_cons.mp hst with rfl | hmem
    · exact ⟨keysEq_initDist nodes src, keysEq_initPrev nodes⟩
    · exact ⟨(hp st hmem).2.1, (hp st hmem).2.2⟩

/-- Witness for C10 at the spec §8 scenario (all edge endpoints listed). -/
theorem claim_C10_witness :
    KeysEq cNodesABC (bellmanFord cNodesABC cEdgesABC "A").distances ∧
    KeysEq cNodesABC (bellmanFord cNodesABC cEdgesABC "A").previous := by
  obtain ⟨_, _, h1, h2⟩ := claim_C10 cNodesABC cEdgesABC "A" (by decide)
  exact ⟨h1, h2⟩

/-- The scan `find?` returns the first match: there is an index holding the found
element such that everything before it fails the predicate. -/
theorem find?_first {α : Type} (p : α → Bool) :
    ∀ (l : List α) (a : α), l.find? p = some a →
      ∃ i, l.get? i = some a ∧ p a = true ∧
        ∀ j b, j < i → l.get? j = some b → p b = false := by
  intro l
  induction l with
  | nil =>
    intro a h
    cases h
  | cons x xs ih =>
    intro a h
    by_cases hx : p x = true
    · rw [List.find?_cons_of_pos _ hx] at h
      injection h with h
      subst h
      exact ⟨0, rfl, hx, fun j b hj _ => absurd hj (Nat.not_lt_zero j)⟩
    · rw [List.find?_cons_of_neg _ (by simpa using hx)] at h
      obtain ⟨i, hi, hpa, hpe⟩ := ih a h
      refine ⟨i + 1, hi, hpa, ?_⟩
      intro j b hj hb
      cases j with
      | zero =>
        injection hb with hb
        subst hb
        rw [Bool.not_eq_true] at hx
        exact hx
      | succ j => exact hpe j b (Nat.lt_of_succ_lt_succ hj) hb

/-- C2 (amended): for the client-lib engine the claim holds as stated —
whenever the post-pass scan finds an edge still admitting an improving
relaxation, `bellmanFord` names the first such edge in edge order in a
`negative_cycle` step, sets `hasNegativeCycle`, returns an empty tree, and
makes that step terminal with no `complete` step.  (The `part_001` variant
instead keeps the tree and terminates with a `complete` step — see the
counterexample.) -/
theorem claim_C2 : ∀ (nodes : List GraphNode) (edges : List GraphEdge) (src : String),
    (∃ e ∈ edges,
      jsAddLt (lookup (bfAfterPasses nodes edges src).distances e.source) e.weight
        (lookup (bfAfterPasses nodes edges src).distances e.destination) = true) →
    ∃ e i,
      cycleEdge (bfAfterPasses nodes edges src).distances edges = some e ∧
      edges.get? i = some e ∧
      (∀ j e', j < i → edges.get? j = some e' →
        jsAddLt (lookup (bfAfterPasses nodes edges src).distances e'.source) e'.weight
          (lookup (bfAfterPasses nodes edges src).distances e'.destination) = false) ∧
      (bellmanFord nodes edges src).hasNegativeCycle = true ∧
      (bellmanFord nodes edges src).shortestPathTree = [] ∧
      (∃ st, (bellmanFord nodes edges src).steps.getLast? = some st ∧
        st.type = StepType.negative_cycle ∧
        st.currentEdge = some (e.source, e.destination) ∧
        st.iteration = nodes.length) ∧
      (∀ st ∈ (bellmanFord nodes edges src).steps, st.type ≠ StepType.complete) := by
  intro nodes edges src hex
  obtain ⟨e, he⟩ : ∃ e, cycleEdge (bfAfterPasses nodes edges src).distances edges = some e :=
    Option.isSome_iff_exists.mp (List.find?_isSome.mpr hex)
  obtain ⟨i, hi, _, hprev⟩ := find?_first _ edges e he
  have hbf : bellmanFord nodes edges src
      = bfNegResult nodes (bfAfterPasses nodes edges src) e := by
    unfold bellmanFord
    rw [he]
  obtain ⟨_, t, ht, hp, _⟩ := bfAfterPasses_spec nodes edges src
  refine ⟨e, i, he, hi, hprev, by rw [hbf]; rfl, by rw [hbf]; rfl, ?_, ?_⟩
  · rw [hbf]
    exact ⟨_, List.getLast?_concat _, rfl, rfl, rfl⟩
  · intro st hst
    rw [hbf] at hst
    rcases List.mem_append.mp hst with h | h
    · rw [ht] at h
      rcases List.mem_cons.mp h with rfl | hmem
      · intro hc
        cases hc
      · rcases (hp st hmem).1 with h1 | h1 <;>
          · rw [h1]
            intro hc
            cases hc
    · rw [List.mem_singleton] at h
      subst h
      intro hc
      cases hc

/-- Witness for C2 at the spec §8 negative-cycle scenario. -/
theorem claim_C2_witness :
    (bellmanFord cNodesAB cEdgesNegCycle "A").hasNegativeCycle = true ∧
    (bellmanFord cNodesAB cEdgesNegCycle "A").shortestPathTree = [] := by
  obtain ⟨e, i, _, _, _, hneg, htree, _, _⟩ :=
    claim_C2 cNodesAB cEdgesNegCycle "A" (by decide)
  exact ⟨hneg, htree⟩

/-- In a step list of the form `pre ++ [u, last]` whose prefix holds no
`update` step and whose final step is terminal, any `update` step sits right
before the terminal step, so everything after it is terminal. -/
theorem upd_terminal_of_decomp (l pre : List AlgorithmStep) (u last : AlgorithmStep)
    (hl : l = pre ++ [u, last])
    (hpre : ∀ st ∈ pre, ¬ st.type = StepType.update)
    (hlast : last.type = StepType.complete ∨ last.type = StepType.negative_cycle) :
    ∀ i j sti stj, l.get? i = some sti → sti.type = StepType.update →
      l.get? j = some stj → i < j →
      stj.type = StepType.complete ∨ stj.type = StepType.negative_cycle := by
  subst hl
  intro i j sti stj hi hti hj hij
  have hipos : i = pre.length := by
    rcases Nat.lt_trichotomy i pre.length with h | h | h
    · exact absurd hti (hpre sti (List.get?_mem (by rw [List.get?_append h] at hi; exact hi)))
    · exact h
    · exfalso
      rw [List.get?_append_right (Nat.le_of_lt h)] at hi
      rcases hk : i - pre.length with _ | k
      · omega
      · rcases k with _ | k2
        · rw [hk] at hi
          injection hi with hi
          subst hi
          rcases hlast with h2 | h2 <;> rw [h2] at hti <;> cases hti
        · rw [hk] at hi
          simp at hi
  subst hipos
  rw [List.get?_append_right (Nat.le_of_lt hij)] at hj
  rcases hk : j - pre.length with _ | k
  · omega
  · rcases k with _ | k2
    · rw [hk] at hj
      injection hj with hj
      subst hj
      exact hlast
    · rw [hk] at hj
      simp at hj

theorem filter_upd_nil (l : List AlgorithmStep)
    (h : ∀ st ∈ l, ¬ st.type = StepType.update) :
    (l.filter (fun st => st.type == StepType.update)).length ≤ 1 := by
  have : l.filter (fun st => st.type == StepType.update) = [] := by
    rw [List.filter_eq_nil]
    intro st hst
    simp only [beq_iff_eq]
    exact h st hst
  rw [this]
  simp

theorem filter_upd_one (l pre post : List AlgorithmStep) (u : AlgorithmStep)
    (hl : l = pre ++ u :: post)
    (hpre : ∀ st ∈ pre, ¬ st.type = StepType.update)
    (hpost : ∀ st ∈ post, ¬ st.type = StepType.update) :
    (l.filter (fun st => st.type == StepType.update)).length ≤ 1 := by
  subst hl
  rw [List.filter_append, List.filter_cons]
  have h1 : pre.filter (fun st => st.type == StepType.update) = [] := by
    rw [List.filter_eq_nil]
    intro st hst
    simp only [beq_iff_eq]
    exact hpre st hst
  have h2 : post.filter (fun st => st.type == StepType.update) = [] := by
    rw [List.filter_eq_nil]
    intro st hst
    simp only [beq_iff_eq]
    exact hpost st hst
  rw [h1, h2]
  split <;> simp

/-- C3 (amended): the client-lib engine stops early — for every run it
emits at most one no-op `update` step, anything after an `update` step is
the terminal `complete`/`negative_cycle` step, and as soon as a pass
relaxes nothing the pass loop ends with exactly that one `update` step
appended.  (The `part_001` variant does not stop early — see the
counterexample, where it emits one `update` step per quiescent pass and
runs all node-count-minus-one passes.) -/
theorem claim_C3 : ∀ (nodes : List GraphNode) (edges : List GraphEdge) (src : String),
    ((bellmanFord nodes edges src).steps.filter
        (fun st => st.type == StepType.update)).length ≤ 1 ∧
    (∀ i j sti stj, (bellmanFord nodes edges src).steps.get? i = some sti →
      sti.type = StepType.update →
      (bellmanFord nodes edges src).steps.get? j = some stj → i < j →
      stj.type = StepType.complete ∨ stj.type = StepType.negative_cycle) ∧
    (∀ (r i : Nat) (s : BFState), (bfPass i edges s).2 = false →
      bfLoop edges (r + 1) i s = pushUpdate i (bfPass i edges s).1) := by
  intro nodes edges src
  obtain ⟨_, t, ht, hp, hshape⟩ := bfAfterPasses_spec nodes edges src
  obtain ⟨st0, ht0, hty0⟩ : ∃ st0, (bfAfterPasses nodes edges src).steps = st0 :: t ∧
      st0.type = StepType.initial := ⟨_, ht, rfl⟩
  have hsteps : ∃ last : AlgorithmStep,
      (bellmanFord nodes edges src).steps = (bfAfterPasses nodes edges src).steps ++ [last] ∧
      (last.type = StepType.complete ∨ last.type = StepType.negative_cycle) := by
    unfold bellmanFord
    split
    · exact ⟨_, rfl, Or.inr rfl⟩
    · exact ⟨_, rfl, Or.inl rfl⟩
  obtain ⟨last, hl, hlast⟩ := hsteps
  rw [ht0] at hl
  refine ⟨?_, ?_, ?_⟩
  · rcases hshape with hall | ⟨t₁, u, rfl, hall, hu⟩
    · rw [hl]
      apply filter_upd_nil
      intro st hst
      rcases List.mem_append.mp hst with h | h
      · rcases List.mem_cons.mp h with rfl | h
        · rw [hty0]
          intro hc
          cases hc
        · rw [hall st h]
          intro hc
          cases hc
      · rw [List.mem_singleton] at h
        subst h
        rcases hlast with h2 | h2 <;> (rw [h2]; intro hc; cases hc)
    · rw [hl]
      apply filter_upd_one _ (st0 :: t₁) [last] u (by simp)
      · intro st hst
        rcases List.mem_cons.mp hst with rfl | h
        · rw [hty0]
          intro hc
          cases hc
        · rw [hall st h]
          intro hc
          cases hc
      · intro st hst
        rw [List.mem_singleton] at hst
        subst hst
        rcases hlast with h2 | h2 <;> (rw [h2]; intro hc; cases hc)
  · rcases hshape with hall | ⟨t₁, u, rfl, hall, hu⟩
    · intro i j sti stj hi hti hj hij
      exfalso
      rw [hl] at hi
      have hmem := List.get?_mem hi
      rcases List.mem_append.mp hmem with h | h
      · rcases List.mem_cons.mp h with rfl | h
        · rw [hty0] at hti
          cases hti
        · rw [hall sti h] at hti
          cases hti
      · rw [List.mem_singleton] at h
        subst h
        rcases hlast with h2 | h2 <;> (rw [h2] at hti; cases hti)
    · intro i j sti stj hi hti hj hij
      refine upd_terminal_of_decomp _ (st0 :: t₁) u last (by rw [hl]; simp) ?_ hlast
        i j sti stj hi hti hj hij
      intro st hst
      rcases List.mem_cons.mp hst with rfl | h
      · rw [hty0]
        intro hc
        cases hc
      · rw [hall st h]
        intro hc
        cases hc
  · intro r i s h
    unfold bfLoop
    split
    · rename_i s1 heq
      rw [heq] at h
      simp at h
    · rename_i s1 heq
      rw [heq]

/-- Witness for C3: on the no-edge two-node input the single pass relaxes
nothing; the run has at most one `update` step (position 1), and the step
after it (position 2) is terminal. -/
theorem claim_C3_witness :
    (((bellmanFord cNodesAB [] "S").steps.filter
        (fun st => st.type == StepType.update)).length ≤ 1) ∧
    (((bellmanFord cNodesAB [] "S").steps.get? 2).map (fun st => st.type)
        = some StepType.complete ∨
      ((bellmanFord cNodesAB [] "S").steps.get? 2).map (fun st => st.type)
        = some StepType.negative_cycle) := by
  obtain ⟨hcount, hpos, _⟩ := claim_C3 cNodesAB ([] : List GraphEdge) "S"
  have h2 := hpos 1 2
    ⟨StepType.update, 1, none, none, [("A", Dist.inf), ("B", Dist.inf)],
      [("A", none), ("B", none)], none, "Iteration 1: No updates"⟩
    ⟨StepType.complete, 2, none, none, [("A", Dist.inf), ("B", Dist.inf)],
      [("A", none), ("B", none)], none, "Bellman-Ford complete — no negative cycle"⟩
    (by decide) rfl (by decide) (by decide)
  refine ⟨hcount, ?_⟩
  rcases h2 with h | h
  · left
    decide
  · cases h

/-- C5 (amended): for every node list and edge list all of whose edge source
ids appear in the node list, the client-lib `buildAdjacencyList` returns
(without failing) a mapping with exactly one entry per node — a node with
no outgoing edges maps to the empty sequence — listing the per-node outgoing
(neighbor, weight) pairs in edge-list order.  (An edge with an unlisted
source id instead makes this builder fail, while the `part_001` builder
tolerates it but adds an extra entry — see the counterexample.) -/
theorem claim_C5 : ∀ (nodes : List GraphNode) (edges : List GraphEdge),
    (∀ e ∈ edges, e.source ∈ nodes.map GraphNode.id) →
    ∃ m, buildAdjacencyList nodes edges = some m ∧
      (keys m).Nodup ∧
      (∀ k, k ∈ keys m ↔ k ∈ nodes.map GraphNode.id) ∧
      ∀ k, k ∈ nodes.map GraphNode.id →
        lookup m k = some ((edges.filter (fun e => decide (e.source = k))).map
          (fun e => (e.destination, e.weight))) :=
  fun nodes edges h => buildAdjacencyList_spec nodes edges h

/-- Witness for C5 at the spec §8 scenario: the builder is defined there and
the entry of node A lists its two outgoing edges in edge-list order. -/
theorem claim_C5_witness :
    (buildAdjacencyList cNodesABC cEdgesABC).isSome = true ∧
    (buildAdjacencyList cNodesABC cEdgesABC).map (fun m => lookup m "A")
      = some (some [("B", 4), ("C", 1)]) := by
  obtain ⟨m, hm, _, _, hval⟩ := claim_C5 cNodesABC cEdgesABC (by decide)
  constructor
  · rw [hm]
    rfl
  · rw [hm, Option.map_some', hval "A" (by decide)]
    decide

/-! ### Degenerate runs: source absent from the node list -/

theorem initDist_all_inf (nodes : List GraphNode) (src : String)
    (h : src ∉ nodes.map GraphNode.id) :
    ∀ k, k ∈ nodes.map GraphNode.id → lookup (initDist nodes src) k = some Dist.inf := by
  intro k hk
  rw [lookup_initDist, if_pos hk, if_neg]
  intro hks
  exact h (hks ▸ hk)

theorem initDist_no_fin (nodes : List GraphNode) (src : String)
    (h : src ∉ nodes.map GraphNode.id) :
    ∀ k v, lookup (initDist nodes src) k = some v → v = Dist.inf := by
  intro k v hv
  rw [lookup_initDist] at hv
  by_cases hk : k ∈ nodes.map GraphNode.id
  · rw [if_pos hk] at hv
    injection hv with hv
    have hks : ¬ k = src := fun hh => h (hh ▸ hk)
    rw [if_neg hks] at hv
    exact hv.symm
  · rw [if_neg hk] at hv
    cases hv

theorem initPrev_all_none (nodes : List GraphNode) :
    ∀ k p, lookup (initPrev nodes) k = some p → p = none := by
  intro k p hp
  rw [lookup_initPrev] at hp
  by_cases hk : k ∈ nodes.map GraphNode.id
  · rw [if_pos hk] at hp
    injection hp with hp
    exact hp.symm
  · rw [if_neg hk] at hp
    cases hp

theorem initPrev_mem (nodes : List GraphNode) :
    ∀ k, k ∈ nodes.map GraphNode.id → lookup (initPrev nodes) k = some none := by
  intro k hk
  rw [lookup_initPrev, if_pos hk]

theorem jsAddLt_false_of_inf {d : List (String × Dist)}
    (h : ∀ k v, lookup d k = some v → v = Dist.inf) (a b : String) (w : Int) :
    jsAddLt (lookup d a) w (lookup d b) = false := by
  cases ha : lookup d a with
  | none =>
    cases hb : lookup d b with
    | none => rfl
    | some v => cases v <;> rfl
  | some v =>
    have hv := h a v ha
    subst hv
    cases hb : lookup d b with
    | none => rfl
    | some v2 => cases v2 <;> rfl

theorem bfRelaxOne_quiet (i : Nat) (e : GraphEdge) (s : BFState) (b : Bool)
    (h : ∀ k v, lookup s.distances k = some v → v = Dist.inf) :
    bfRelaxOne i e (s, b) = (s, b) := by
  unfold bfRelaxOne
  split
  · rename_i a heq
    have := h _ _ heq
    cases this
  · rfl

theorem bfPassGo_quiet (i : Nat) (es : List GraphEdge) (s : BFState) (b : Bool)
    (h : ∀ k v, lookup s.distances k = some v → v = Dist.inf) :
    bfPassGo i es (s, b) = (s, b) := by
  induction es with
  | nil => rfl
  | cons e es ih =>
    show bfPassGo i es (bfRelaxOne i e (s, b)) = (s, b)
    rw [bfRelaxOne_quiet i e s b h]
    exact ih

theorem bfLoop_quiet (edges : List GraphEdge) (r i : Nat) (s : BFState)
    (h : ∀ k v, lookup s.distances k = some v → v = Dist.inf) :
    bfLoop edges (Nat.succ r) i s = pushUpdate i s := by
  unfold bfLoop
  have hp : bfPass i edges s = (s, false) := bfPassGo_quiet i edges s false h
  rw [hp]

theorem findMin_none_of_inf (dist : List (String × Dist)) (visited : List String)
    (h : ∀ k v, lookup dist k = some v → v = Dist.inf) :
    ∀ ns : List GraphNode, findMin dist visited ns none = none := by
  intro ns
  induction ns with
  | nil => rfl
  | cons n ns ih =>
    unfold findMin
    by_cases hv : n.id ∈ visited
    · rw [if_pos hv]
      exact ih
    · rw [if_neg hv]
      cases hl : lookup dist n.id with
      | none => exact ih
      | some v =>
        have hvi := h _ _ hl
        subst hvi
        exact ih

theorem dijkstraLoop_stuck (nodes : List GraphNode) (adj : AdjList) (fuel : Nat) (s : DState)
    (hfm : findMin s.distances s.visited nodes none = none) :
    dijkstraLoop nodes adj (Nat.succ fuel) s = s := by
  unfold dijkstraLoop
  split
  · rw [hfm]
  · rfl

theorem buildTreeGo_none (edges : List GraphEdge) (prev : List (String × Option String))
    (h : ∀ k p, lookup prev k = some p → p = none) :
    ∀ (ns : List GraphNode) (acc : List GraphEdge), buildTreeGo edges prev ns acc = acc := by
  intro ns
  induction ns with
  | nil => intro acc; rfl
  | cons n ns ih =>
    intro acc
    unfold buildTreeGo
    split
    · rename_i p heq
      have := h _ _ heq
      cases this
    · exact ih acc

theorem buildTree_none (nodes : List GraphNode) (edges : List GraphEdge)
    (prev : List (String × Option String))
    (h : ∀ k p, lookup prev k = some p → p = none) :
    buildTree nodes edges prev = [] :=
  buildTreeGo_none edges prev h nodes []

/-- C6 (amended): when the source id is absent from the node list, both
algorithms degenerate gracefully — all final distances infinite, all final
predecessors none, empty tree, `hasNegativeCycle = false`.  `dijkstra`
emits only the `initial` and terminal `complete` steps, provided every edge
source id is listed (an edge with an unlisted source makes `dijkstra` fail
— see the counterexample); `bellmanFord` additionally emits one no-op
`update` step whenever the node count exceeds 1. -/
theorem claim_C6 : ∀ (nodes : List GraphNode) (edges : List GraphEdge) (src : String),
    src ∉ nodes.map GraphNode.id →
    ((∀ k, k ∈ nodes.map GraphNode.id →
        lookup (bellmanFord nodes edges src).distances k = some Dist.inf) ∧
      (∀ k, k ∈ nodes.map GraphNode.id →
        lookup (bellmanFord nodes edges src).previous k = some none) ∧
      (bellmanFord nodes edges src).shortestPathTree = [] ∧
      (bellmanFord nodes edges src).hasNegativeCycle = false ∧
      (bellmanFord nodes edges src).steps.map (fun st => st.type) =
        (if nodes.length ≤ 1 then [StepType.initial, StepType.complete]
         else [StepType.initial, StepType.update, StepType.complete])) ∧
    ((∀ e ∈ edges, e.source ∈ nodes.map GraphNode.id) →
      ∃ r, dijkstra nodes edges src = some r ∧
        (∀ k, k ∈ nodes.map GraphNode.id → lookup r.distances k = some Dist.inf) ∧
        (∀ k, k ∈ nodes.map GraphNode.id → lookup r.previous k = some none) ∧
        r.shortestPathTree = [] ∧ r.hasNegativeCycle = false ∧
        r.steps.map (fun st => st.type) = [StepType.initial, StepType.complete]) := by
  intro nodes edges src hsrc
  have hinf := initDist_no_fin nodes src hsrc
  have hdall := initDist_all_inf nodes src hsrc
  have hpn := initPrev_all_none nodes
  have hpall := initPrev_mem nodes
  constructor
  · have hcyc0 : cycleEdge (initDist nodes src) edges = none :=
      List.find?_eq_none.mpr (fun e _ => by
        rw [jsAddLt_false_of_inf hinf e.source e.destination e.weight]
        simp)
    by_cases hn : nodes.length ≤ 1
    · have hafter : bfAfterPasses nodes edges src = bfInitState nodes src := by
        unfold bfAfterPasses
        rw [show nodes.length - 1 = 0 from by omega]
        rfl
      have hcyc : cycleEdge (bfAfterPasses nodes edges src).distances edges = none := by
        rw [hafter]
        exact hcyc0
      have hbf : bellmanFord nodes edges src
          = bfCompleteResult nodes edges (bfAfterPasses nodes edges src) := by
        unfold bellmanFord
        rw [hcyc]
      rw [hbf, hafter]
      exact ⟨hdall, hpall, buildTree_none nodes edges _ hpn, rfl,
        by rw [if_pos hn]; rfl⟩
    · obtain ⟨r', hr'⟩ : ∃ r', nodes.length - 1 = Nat.succ r' :=
        ⟨nodes.length - 2, by omega⟩
      have hafter : bfAfterPasses nodes edges src
          = pushUpdate 1 (bfInitState nodes src) := by
        unfold bfAfterPasses
        rw [hr']
        exact bfLoop_quiet edges r' 1 (bfInitState nodes src) hinf
      have hcyc : cycleEdge (bfAfterPasses nodes edges src).distances edges = none := by
        rw [hafter]
        exact hcyc0
      have hbf : bellmanFord nodes edges src
          = bfCompleteResult nodes edges (bfAfterPasses nodes edges src) := by
        unfold bellmanFord
        rw [hcyc]
      rw [hbf, hafter]
      exact ⟨hdall, hpall, buildTree_none nodes edges _ hpn, rfl,
        by rw [if_neg hn]; rfl⟩
  · intro hedges
    obtain ⟨adj, hadj, _, _, _⟩ := buildAdjacencyList_spec nodes edges hedges
    have hd := dijkstra_eq_some nodes edges src adj hadj
    have hstuck : dijkstraLoop nodes adj (nodes.length + 1) (dInitState nodes src)
        = dInitState nodes src :=
      dijkstraLoop_stuck nodes adj nodes.length (dInitState nodes src)
        (findMin_none_of_inf _ _ hinf nodes)
    rw [hstuck] at hd
    exact ⟨_, hd, hdall, hpall, buildTree_none nodes edges _ hpn, rfl, rfl⟩

/-- Witness for C6: on nodes [A], no edges, absent source "S", both
algorithms degrade to everything-unreachable. -/
theorem claim_C6_witness :
    lookup (bellmanFord [⟨"A"⟩] [] "S").distances "A" = some Dist.inf ∧
    (bellmanFord [⟨"A"⟩] [] "S").shortestPathTree = [] ∧
    (bellmanFord [⟨"A"⟩] [] "S").hasNegativeCycle = false ∧
    (dijkstra [⟨"A"⟩] [] "S").isSome = true := by
  obtain ⟨⟨hdist, _, htree, hflag, _⟩, hdij⟩ :=
    claim_C6 [⟨"A"⟩] ([] : List GraphEdge) "S" (by decide)
  obtain ⟨r, hr, _⟩ := hdij (by simp)
  refine ⟨hdist "A" (by decide), htree, hflag, ?_⟩
  rw [hr]
  rfl

/-- C9 (amended): on a single-node graph with no edges and that node as
source, `bellmanFord` emits exactly one `initial` step immediately followed
by one `complete` step, but `dijkstra` emits a `select` step for the source
between them (unless the node id is the empty string, which the falsy
`!minNode` break treats as null, skipping the selection); both return the
node at distance 0 and an empty tree. -/
theorem claim_C9 : ∀ id : String,
    (bellmanFord [⟨id⟩] [] id).steps.map (fun st => st.type)
        = [StepType.initial, StepType.complete] ∧
    lookup (bellmanFord [⟨id⟩] [] id).distances id = some (Dist.fin 0) ∧
    (bellmanFord [⟨id⟩] [] id).shortestPathTree = [] ∧
    (bellmanFord [⟨id⟩] [] id).hasNegativeCycle = false ∧
    (dijkstra [⟨id⟩] [] id).map (fun r => r.steps.map (fun st => st.type))
        = some (if id = "" then [StepType.initial, StepType.complete]
            else [StepType.initial, StepType.select, StepType.complete]) ∧
    (dijkstra [⟨id⟩] [] id).map (fun r => lookup r.distances id)
        = some (some (Dist.fin 0)) ∧
    (dijkstra [⟨id⟩] [] id).map (fun r => r.shortestPathTree) = some [] := by
  intro id
  refine ⟨rfl, ?_, ?_, rfl, ?_, ?_, ?_⟩
  · show lookup (initDist [⟨id⟩] id) id = some (Dist.fin 0)
    rw [lookup_initDist]
    simp
  · show buildTree [⟨id⟩] [] (initPrev [⟨id⟩]) = []
    exact buildTree_none _ _ _ (initPrev_all_none _)
  · by_cases hid : id = ""
    · subst hid
      rw [if_pos rfl]
      decide
    · rw [if_neg hid]
      simp [dijkstra, dijkstraLoop, findMin, dInitState, initDist, initPrev, initAdj,
        buildAdjacencyList, addEdges, lookup, setKey, selectPush, bumpIter, relaxNeighbors,
        dijkstraResult, buildTree, buildTreeGo, hid]
  · by_cases hid : id = ""
    · subst hid
      decide
    · simp [dijkstra, dijkstraLoop, findMin, dInitState, initDist, initPrev, initAdj,
        buildAdjacencyList, addEdges, lookup, setKey, selectPush, bumpIter, relaxNeighbors,
        dijkstraResult, buildTree, buildTreeGo, hid]
  · by_cases hid : id = ""
    · subst hid
      decide
    · simp [dijkstra, dijkstraLoop, findMin, dInitState, initDist, initPrev, initAdj,
        buildAdjacencyList, addEdges, lookup, setKey, selectPush, bumpIter, relaxNeighbors,
        dijkstraResult, buildTree, buildTreeGo, hid]

end GA
